import Mathlib

/-!
Verification of the parallel-machine A* scheduler
(`src/Parallel Machine Scheduling/Code.cpp`), as a shallow embedding:
the C++ structs `Maquina`, `Tarea`, `Asignacion`, `Estado` become Lean
structures, and the functions `asignarTarea`, `calcularCoste`,
`calcularHeuristica2`, `generarSucesores`, `A_estrella` become Lean
functions with the same names.  C++ `int` is embedded as `Int`; the
`double` arithmetic of the heuristic is embedded over `ℚ` (the exact
value of the expressions the code computes), with `round` standing for
`std::round` on the non-negative values actually rounded.
-/

namespace PMS

/-- Embeds the C++ struct `Maquina { int id; int tiempo_ocupado = 0; }`. -/
structure Maquina where
  id : Int
  tiempo_ocupado : Int
deriving DecidableEq, Repr

/-- Embeds the C++ struct `Tarea { int id; int tiempo; }`. -/
structure Tarea where
  id : Int
  tiempo : Int
deriving DecidableEq, Repr

/-- Embeds the C++ struct `Asignacion { int tarea_id; int maquina_id; int posicion; }`.
The source never sets `posicion`; aggregate initialization value-initializes it to 0. -/
structure Asignacion where
  tarea_id : Int
  maquina_id : Int
  posicion : Int
deriving DecidableEq, Repr

/-- Embeds the C++ struct `Estado`: machines `M`, pending tasks `T`,
assignment history `Asignaciones`. -/
structure Estado where
  M : List Maquina
  T : List Tarea
  Asignaciones : List Asignacion
deriving DecidableEq, Repr

/-- Updates the first machine in the list whose `id` matches, adding `dt` to
its `tiempo_ocupado`; embeds steps 5-7 and 11 of `asignarTarea` (the
`find_if` over `nuevo.M` followed by `maquina.tiempo_ocupado += tarea.tiempo`). -/
def actualizarMaquina : List Maquina → Int → Int → List Maquina
  | [], _, _ => []
  | m :: ms, maquina_id, dt =>
    if m.id = maquina_id then { m with tiempo_ocupado := m.tiempo_ocupado + dt } :: ms
    else m :: actualizarMaquina ms maquina_id dt

/-- Embeds `asignarTarea` (Code.cpp lines 68-111): copy the state, find the
task by id in `T` (early return of the untouched copy if absent), find the
machine by id in `M` (early return of the untouched copy if absent), then
append the `Asignacion`, erase the task from `T`, and add the task's
duration to the machine's `tiempo_ocupado`.  The embedding is a pure Lean
function, matching the source's value semantics (the input state is copied,
never mutated). -/
def asignarTarea (estado : Estado) (tarea_id maquina_id : Int) : Estado :=
  match estado.T.find? (fun t => t.id = tarea_id) with
  | none => estado
  | some tarea =>
    match estado.M.find? (fun m => m.id = maquina_id) with
    | none => estado
    | some maquina =>
      { M := actualizarMaquina estado.M maquina_id tarea.tiempo
        T := estado.T.eraseP (fun t => decide (t.id = tarea_id))
        Asignaciones := estado.Asignaciones ++ [⟨tarea.id, maquina.id, 0⟩] }

/-- Embeds `calcularCoste` (lines 120-126): the maximum `tiempo_ocupado`
over the machines, folded from an accumulator starting at 0. -/
def calcularCoste (estado : Estado) : Int :=
  estado.M.foldl (fun acc m => max acc m.tiempo_ocupado) 0

/-- Embeds `calcularHeuristica2` (lines 131-160).  The `double`
computation is embedded over `ℚ` (the exact value of the arithmetic the
code performs); `round` embeds `std::round` followed by
`static_cast<int>`, exact here because the value rounded has been clamped
non-negative, where round-half-away-from-zero and `round` agree. -/
def calcularHeuristica2 (estado : Estado) : Int :=
  let numM : ℚ := (estado.M.length : ℚ)
  let suma_t_restantes : Int := (estado.T.map (fun t => t.tiempo)).sum
  let tiempo_max : Int := estado.M.foldl (fun acc m => max acc m.tiempo_ocupado) 0
  let suma_espacio_libre : Int :=
    (estado.M.map (fun m => tiempo_max - m.tiempo_ocupado)).sum
  let espacio_libre_promedio : ℚ := (suma_espacio_libre : ℚ) / numM
  let heuristica : ℚ := (suma_t_restantes : ℚ) / numM - espacio_libre_promedio
  round (if heuristica < 0 then (0 : ℚ) else heuristica)

/-- Integer-arithmetic form of `calcularHeuristica2`, used inside the
executable search embedding (`ℚ` arithmetic does not reduce in the
kernel); `heuristicaEntera_correcta` proves it pointwise equal to
`calcularHeuristica2`. -/
def calcularHeuristicaEntera (estado : Estado) : Int :=
  let numM : Int := (estado.M.length : Int)
  let suma_t_restantes : Int := (estado.T.map (fun t => t.tiempo)).sum
  let tiempo_max : Int := estado.M.foldl (fun acc m => max acc m.tiempo_ocupado) 0
  let suma_espacio_libre : Int :=
    (estado.M.map (fun m => tiempo_max - m.tiempo_ocupado)).sum
  let dif : Int := suma_t_restantes - suma_espacio_libre
  if dif < 0 then 0 else (2 * dif + numM) / (2 * numM)

/-- Embeds `generarSucesores` (lines 164-181): one successor per (pending
task, machine) pair, outer loop over `T`, inner loop over `M`. -/
def generarSucesores (estado : Estado) : List Estado :=
  estado.T.flatMap (fun tarea =>
    estado.M.map (fun maquina => asignarTarea estado tarea.id maquina.id))

/-- Embeds the C++ struct `Nodo { Estado estado; int g_cost; int f_cost; }`. -/
structure Nodo where
  estado : Estado
  g_cost : Int
  f_cost : Int
deriving DecidableEq, Repr

/-- Extracts a node of minimal `f_cost` from the frontier list (the earliest
inserted among ties), returning it with the rest; embeds `cola.top()` /
`cola.pop()` of the `std::priority_queue` min-heap on `f_cost` (ties are
implementation-defined in the source; the embedding fixes first-inserted). -/
def extraerMin : List Nodo → Option (Nodo × List Nodo)
  | [] => none
  | n :: resto =>
    match extraerMin resto with
    | none => some (n, [])
    | some (m, resto') =>
      if n.f_cost ≤ m.f_cost then some (n, resto) else some (m, n :: resto')

/-- The key under which `std::map<Estado,int>` stores a state: `Estado`'s
`operator<` compares `T` then `M`, and `Tarea`'s `operator<` compares ids
only, so two states are one map key iff their pending-task id sequences and
their machine sequences (id and `tiempo_ocupado`) coincide. -/
def claveEstado (estado : Estado) : List Int × List Maquina :=
  (estado.T.map (fun t => t.id), estado.M)

/-- Looks up a state key in the closed list (embeds `closed_list.find`). -/
def buscarCerrada (cerrada : List ((List Int × List Maquina) × Int))
    (clave : List Int × List Maquina) : Option Int :=
  (cerrada.find? (fun par => par.1 = clave)).map (fun par => par.2)

/-- Writes `closed_list[clave] = g` (overwrite if present, insert otherwise). -/
def insertarCerrada (cerrada : List ((List Int × List Maquina) × Int))
    (clave : List Int × List Maquina) (g : Int) :
    List ((List Int × List Maquina) × Int) :=
  match cerrada with
  | [] => [(clave, g)]
  | par :: resto =>
    if par.1 = clave then (clave, g) :: resto
    else par :: insertarCerrada resto clave g

/-- The A* main loop (lines 222-267), with explicit frontier and closed
list and a fuel parameter for termination (`none` = fuel exhausted, a
modeling artifact only; the C++ loop has no such exit).  When the frontier
empties the source returns `estado_inicial`, and so does the embedding. -/
def bucleAstar (estado_inicial : Estado) :
    Nat → List Nodo → List ((List Int × List Maquina) × Int) → Option Estado
  | 0, _, _ => none
  | combustible + 1, cola, cerrada =>
    match extraerMin cola with
    | none => some estado_inicial
    | some (actual, resto) =>
      if actual.estado.T.isEmpty then some actual.estado
      else
        let clave := claveEstado actual.estado
        let dominado : Bool :=
          match buscarCerrada cerrada clave with
          | none => false
          | some g => decide (g ≤ actual.g_cost)
        if dominado then bucleAstar estado_inicial combustible resto cerrada
        else
          let cerrada' := insertarCerrada cerrada clave actual.g_cost
          let hijos := (generarSucesores actual.estado).map (fun sucesor =>
            let g := calcularCoste sucesor
            ⟨sucesor, g, g + calcularHeuristicaEntera sucesor⟩)
          bucleAstar estado_inicial combustible (resto ++ hijos) cerrada'

/-- Embeds `A_estrella` (lines 201-268): push the initial node with
`g = calcularCoste`, `f = g + calcularHeuristica2`, then run the loop. -/
def A_estrella (combustible : Nat) (estado_inicial : Estado) : Option Estado :=
  let g_inicial := calcularCoste estado_inicial
  let h_inicial := calcularHeuristicaEntera estado_inicial
  bucleAstar estado_inicial combustible
    [⟨estado_inicial, g_inicial, g_inicial + h_inicial⟩] []

/-- Embeds the state construction in `main` (lines 274-287): machines with
ids `1..numMaquinas` and `tiempo_ocupado = 0`, tasks with ids `1..N` in
input order carrying the given durations, empty history. -/
def estadoInicial (numMaquinas : Nat) (tiempos : List Int) : Estado :=
  { M := (List.range numMaquinas).map (fun i => ⟨(i : Int) + 1, 0⟩)
    T := ((List.range tiempos.length).zip tiempos).map
      (fun par => ⟨(par.1 : Int) + 1, par.2⟩)
    Asignaciones := [] }

/-- The states the search can reach from `inicial`: the search expands a
state through `generarSucesores`, whose elements are exactly
`asignarTarea s t.id m.id` for a pending task `t` and a machine `m`. -/
inductive Alcanzable (inicial : Estado) : Estado → Prop
  | base : Alcanzable inicial inicial
  | paso {s : Estado} (t : Tarea) (m : Maquina) (hs : Alcanzable inicial s)
      (ht : t ∈ s.T) (hm : m ∈ s.M) :
      Alcanzable inicial (asignarTarea s t.id m.id)

/-- The duration the original task list gives to a task id (the durations
the history's assignments refer to). -/
def duracionOriginal (inicial : Estado) (tid : Int) : Int :=
  match inicial.T.find? (fun t => t.id = tid) with
  | some t => t.tiempo
  | none => 0

/-- Total duration the history assigns to machine id `mid`, with durations
read off the original task list. -/
def cargaHistorial (inicial : Estado) (hist : List Asignacion) (mid : Int) : Int :=
  ((hist.filter (fun a => a.maquina_id = mid)).map
    (fun a => duracionOriginal inicial a.tarea_id)).sum

/-- The heuristic exactly as the spec's §4.3 words give it (for the
refinement claim about `calcularHeuristica2`): total slack
`S = Σ (C - busyTime)` with `C = g(state)`, `averageSlack = S / M`,
`averageRemainingLoad = R / M`, and
`h = max(0, round(averageRemainingLoad - averageSlack))`. -/
def heuristicaFormulaSpec (estado : Estado) : Int :=
  let numM : ℚ := (estado.M.length : ℚ)
  let r : Int := (estado.T.map (fun t => t.tiempo)).sum
  let c : Int := calcularCoste estado
  let s : Int := (estado.M.map (fun m => c - m.tiempo_ocupado)).sum
  let espacioPromedio : ℚ := (s : ℚ) / numM
  let cargaPromedio : ℚ := (r : ℚ) / numM
  max 0 (round (cargaPromedio - espacioPromedio))

section Ayudantes

/-- In a list whose keys are distinct, searching for a member's key finds
exactly that member. -/
theorem find_por_clave {α : Type} (key : α → Int) :
    ∀ (l : List α) (a : α), a ∈ l → (l.map key).Nodup →
      l.find? (fun x => decide (key x = key a)) = some a := by
  intro l a hmem hnodup
  induction l with
  | nil => cases hmem
  | cons b resto ih =>
    rcases List.mem_cons.mp hmem with rfl | hresto
    · simp [List.find?]
    · have hne : key b ≠ key a := by
        intro hk
        exact (List.nodup_cons.mp hnodup).1 (hk ▸ List.mem_map_of_mem key hresto)
      have : (decide (key b = key a)) = false := by simp [hne]
      simp [List.find?, this]
      exact ih hresto (List.nodup_cons.mp hnodup).2

/-- A member of a list with distinct keys splits the list with no earlier
occurrence of its key. -/
theorem descomposicion_por_clave {α : Type} (key : α → Int) (l : List α) (a : α)
    (hmem : a ∈ l) (hnodup : (l.map key).Nodup) :
    ∃ l1 l2, l = l1 ++ a :: l2 ∧ ∀ x ∈ l1, key x ≠ key a := by
  obtain ⟨l1, l2, rfl⟩ := List.append_of_mem hmem
  refine ⟨l1, l2, rfl, ?_⟩
  intro x hx hk
  have : (l1.map key ++ key a :: l2.map key).Nodup := by simpa using hnodup
  have hnm : key a ∉ l1.map key := by
    have := (List.nodup_middle.mp this)
    exact fun hmem' => (List.nodup_cons.mp this).1 (List.mem_append_left _ hmem')
  exact hnm (hk ▸ List.mem_map_of_mem key hx)

/-- `find?` over a split list whose prefix never matches. -/
theorem find_en_particion {α : Type} (p : α → Bool) (l1 : List α) (a : α) (l2 : List α)
    (h1 : ∀ x ∈ l1, p x = false) (ha : p a = true) :
    (l1 ++ a :: l2).find? p = some a := by
  induction l1 with
  | nil => simp [List.find?, ha]
  | cons b resto ih =>
    have hb : p b = false := h1 b (List.mem_cons_self b resto)
    simp only [List.cons_append, List.find?, hb]
    exact ih fun x hx => h1 x (List.mem_cons_of_mem b hx)

/-- `eraseP` over a split list whose prefix never matches removes exactly
the splitting element. -/
theorem eraseP_en_particion {α : Type} (p : α → Bool) (l1 : List α) (a : α) (l2 : List α)
    (h1 : ∀ x ∈ l1, p x = false) (ha : p a = true) :
    (l1 ++ a :: l2).eraseP p = l1 ++ l2 := by
  induction l1 with
  | nil => simp [List.eraseP_cons, ha]
  | cons b resto ih =>
    have hb : p b = false := h1 b (List.mem_cons_self b resto)
    simp only [List.cons_append, List.eraseP_cons, hb, cond_false]
    rw [ih fun x hx => h1 x (List.mem_cons_of_mem b hx)]

/-- `actualizarMaquina` on a split machine list whose prefix misses the id
updates exactly the splitting machine. -/
theorem actualizarMaquina_en_particion (m1 : List Maquina) (m : Maquina)
    (m2 : List Maquina) (dt : Int) (h1 : ∀ x ∈ m1, x.id ≠ m.id) :
    actualizarMaquina (m1 ++ m :: m2) m.id dt
      = m1 ++ { m with tiempo_ocupado := m.tiempo_ocupado + dt } :: m2 := by
  induction m1 with
  | nil => simp [actualizarMaquina]
  | cons b resto ih =>
    have hb : b.id ≠ m.id := h1 b (List.mem_cons_self b resto)
    simp only [List.cons_append, actualizarMaquina, if_neg hb, List.append_eq]
    rw [ih fun x hx => h1 x (List.mem_cons_of_mem b hx)]

/-- Full characterization of a successful assignment: with distinct ids, a
pending task `t` and a machine `m`, the new state erases exactly `t`,
updates exactly `m`, and appends exactly one record. -/
theorem asignarTarea_eq (s : Estado) (t : Tarea) (m : Maquina)
    (ht : t ∈ s.T) (hm : m ∈ s.M)
    (hT : (s.T.map Tarea.id).Nodup) (hM : (s.M.map Maquina.id).Nodup) :
    ∃ l1 l2 m1 m2, s.T = l1 ++ t :: l2 ∧ s.M = m1 ++ m :: m2 ∧
      asignarTarea s t.id m.id =
        { M := m1 ++ { m with tiempo_ocupado := m.tiempo_ocupado + t.tiempo } :: m2
          T := l1 ++ l2
          Asignaciones := s.Asignaciones ++ [⟨t.id, m.id, 0⟩] } := by
  obtain ⟨l1, l2, hTeq, hl1⟩ := descomposicion_por_clave Tarea.id s.T t ht hT
  obtain ⟨m1, m2, hMeq, hm1⟩ := descomposicion_por_clave Maquina.id s.M m hm hM
  have hfT : s.T.find? (fun x => decide (x.id = t.id)) = some t :=
    find_por_clave Tarea.id s.T t ht hT
  have hfM : s.M.find? (fun x => decide (x.id = m.id)) = some m :=
    find_por_clave Maquina.id s.M m hm hM
  refine ⟨l1, l2, m1, m2, hTeq, hMeq, ?_⟩
  unfold asignarTarea
  rw [hfT, hfM]
  have herase : s.T.eraseP (fun x => decide (x.id = t.id)) = l1 ++ l2 := by
    rw [hTeq]
    exact eraseP_en_particion _ l1 t l2 (fun x hx => by simp [hl1 x hx]) (by simp)
  have hact : actualizarMaquina s.M m.id t.tiempo
      = m1 ++ { m with tiempo_ocupado := m.tiempo_ocupado + t.tiempo } :: m2 := by
    rw [hMeq]
    exact actualizarMaquina_en_particion m1 m m2 t.tiempo hm1
  simp [herase, hact]

/-- Updating a machine with a non-negative duration never lowers any
machine's `tiempo_ocupado`, position by position. -/
theorem actualizar_no_decrece (mid dt : Int) (hdt : 0 ≤ dt) :
    ∀ l : List Maquina,
      List.Forall₂ (fun a b => a.tiempo_ocupado ≤ b.tiempo_ocupado) l
        (actualizarMaquina l mid dt) := by
  intro l
  induction l with
  | nil => exact List.Forall₂.nil
  | cons m resto ih =>
    by_cases hid : m.id = mid
    · simp only [actualizarMaquina, if_pos hid]
      exact List.Forall₂.cons
        (show m.tiempo_ocupado ≤ m.tiempo_ocupado + dt from le_add_of_nonneg_right hdt)
        ((List.forall₂_same).mpr fun a _ => le_refl _)
    · simp only [actualizarMaquina, if_neg hid]
      exact List.Forall₂.cons (le_refl _) ih

/-- The running-maximum fold is monotone in the accumulator and in the
(pointwise comparable) machine loads. -/
theorem foldl_max_mono :
    ∀ (l1 l2 : List Maquina),
      List.Forall₂ (fun a b => a.tiempo_ocupado ≤ b.tiempo_ocupado) l1 l2 →
      ∀ (a b : Int), a ≤ b →
        l1.foldl (fun acc m => max acc m.tiempo_ocupado) a
          ≤ l2.foldl (fun acc m => max acc m.tiempo_ocupado) b := by
  intro l1 l2 h
  induction h with
  | nil => intro a b hab; simpa using hab
  | cons hxy _ ih =>
    intro a b hab
    exact ih _ _ (max_le_max hab hxy)

/-- Assigning a task with the non-negative durations of the pending list
never lowers the makespan, whether or not the ids are found. -/
theorem coste_asignar_ge (s : Estado) (tid mid : Int)
    (hdur : ∀ t ∈ s.T, 0 ≤ t.tiempo) :
    calcularCoste s ≤ calcularCoste (asignarTarea s tid mid) := by
  cases hfT : s.T.find? (fun x => decide (x.id = tid)) with
  | none => simp [asignarTarea, hfT]
  | some tarea =>
    cases hfM : s.M.find? (fun x => decide (x.id = mid)) with
    | none => simp [asignarTarea, hfT, hfM]
    | some maquina =>
      have hmem : tarea ∈ s.T := List.mem_of_find?_eq_some hfT
      have hdt : 0 ≤ tarea.tiempo := hdur tarea hmem
      simp only [asignarTarea, hfT, hfM]
      exact foldl_max_mono s.M _ (actualizar_no_decrece mid tarea.tiempo hdt s.M)
        0 0 (le_refl 0)

/-- Membership in `generarSucesores` is exactly one task/machine choice. -/
theorem mem_generarSucesores (s suc : Estado) :
    suc ∈ generarSucesores s ↔
      ∃ t ∈ s.T, ∃ m ∈ s.M, asignarTarea s t.id m.id = suc := by
  simp [generarSucesores, List.mem_flatMap, List.mem_map]

/-- The pending list of any assignment result is a sublist of the input's. -/
theorem asignar_T_sublist (s : Estado) (tid mid : Int) :
    (asignarTarea s tid mid).T.Sublist s.T := by
  cases hfT : s.T.find? (fun x => decide (x.id = tid)) with
  | none => simp [asignarTarea, hfT]
  | some tarea =>
    cases hfM : s.M.find? (fun x => decide (x.id = mid)) with
    | none => simp [asignarTarea, hfT, hfM]
    | some maquina =>
      simp only [asignarTarea, hfT, hfM]
      exact List.eraseP_sublist _

/-- `actualizarMaquina` preserves the machine id sequence. -/
theorem actualizar_ids (mid dt : Int) :
    ∀ l : List Maquina, (actualizarMaquina l mid dt).map Maquina.id = l.map Maquina.id := by
  intro l
  induction l with
  | nil => rfl
  | cons m resto ih =>
    by_cases hid : m.id = mid
    · simp [actualizarMaquina, if_pos hid]
    · simp [actualizarMaquina, if_neg hid, ih]

/-- Any assignment preserves the machine id sequence. -/
theorem asignar_ids_maquinas (s : Estado) (tid mid : Int) :
    (asignarTarea s tid mid).M.map Maquina.id = s.M.map Maquina.id := by
  cases hfT : s.T.find? (fun x => decide (x.id = tid)) with
  | none => simp [asignarTarea, hfT]
  | some tarea =>
    cases hfM : s.M.find? (fun x => decide (x.id = mid)) with
    | none => simp [asignarTarea, hfT, hfM]
    | some maquina =>
      simp only [asignarTarea, hfT, hfM]
      exact actualizar_ids mid tarea.tiempo s.M

/-- Along the search, the pending list only shrinks (as a sublist). -/
theorem alcanzable_sublist (inicial s : Estado) (h : Alcanzable inicial s) :
    s.T.Sublist inicial.T := by
  induction h with
  | base => exact List.Sublist.refl _
  | paso t m _ ht hm ih => exact (asignar_T_sublist _ _ _).trans ih

/-- Along the search, the machine id sequence never changes. -/
theorem alcanzable_ids_maquinas (inicial s : Estado) (h : Alcanzable inicial s) :
    s.M.map Maquina.id = inicial.M.map Maquina.id := by
  induction h with
  | base => rfl
  | paso t m _ ht hm ih => rw [asignar_ids_maquinas]; exact ih

/-- The integer-arithmetic heuristic agrees with the rational embedding of
the source's computation on every state. -/
theorem heuristicaEntera_correcta (estado : Estado) :
    calcularHeuristicaEntera estado = calcularHeuristica2 estado := by
  simp only [calcularHeuristicaEntera, calcularHeuristica2]
  by_cases hM : estado.M = []
  · simp [hM, round_zero]
  · have hlen : 0 < estado.M.length := List.length_pos.mpr hM
    have hpos : (0:ℚ) < (estado.M.length : ℚ) := by exact_mod_cast hlen
    have hne : ((estado.M.length : ℚ)) ≠ 0 := ne_of_gt hpos
    set R : Int := (estado.T.map (fun t => t.tiempo)).sum with hRdef
    set tm : Int := estado.M.foldl (fun acc m => max acc m.tiempo_ocupado) 0 with htm
    set S : Int := (estado.M.map (fun m => tm - m.tiempo_ocupado)).sum with hSdef
    have hx : (R:ℚ) / (estado.M.length : ℚ) - (S:ℚ) / (estado.M.length : ℚ)
        = ((R - S : Int) : ℚ) / (estado.M.length : ℚ) := by
      rw [div_sub_div_same]; push_cast; ring
    rw [hx]
    have hlt : (((R - S : Int) : ℚ) / (estado.M.length : ℚ) < 0) ↔ (R - S < 0) := by
      rw [div_lt_iff₀ hpos]
      simp
    by_cases hdif : R - S < 0
    · rw [if_pos hdif, if_pos (hlt.mpr hdif), round_zero]
    · rw [if_neg hdif, if_neg (fun h => hdif (hlt.mp h)), round_eq]
      have hsum : ((R - S : Int) : ℚ) / (estado.M.length : ℚ) + 1 / 2
          = ((2 * (R - S) + (estado.M.length : Int) : Int) : ℚ)
            / ((2 * estado.M.length : Nat) : ℚ) := by
        field_simp
        ring
      rw [hsum, Rat.floor_intCast_div_natCast]
      push_cast
      ring_nf

/-- A `flatMap` of empty lists is empty (shape of `generarSucesores` when
there are no machines). -/
theorem flatMap_vacio {α β : Type} (l : List α) :
    (l.flatMap fun _ => ([] : List β)) = [] := by
  induction l with
  | nil => rfl
  | cons a resto ih => simp [ih]

/-- Task-id conservation along the search: the pending ids together with
the history's ids stay a permutation of what they were initially. -/
theorem conservacion_perm (inicial s : Estado) (h : Alcanzable inicial s)
    (hnodup : (inicial.T.map Tarea.id).Nodup) :
    (s.T.map Tarea.id ++ s.Asignaciones.map Asignacion.tarea_id).Perm
      (inicial.T.map Tarea.id ++ inicial.Asignaciones.map Asignacion.tarea_id) := by
  induction h with
  | base => exact List.Perm.refl _
  | @paso s t m hs ht hm ih =>
    have hTnodup : (s.T.map Tarea.id).Nodup :=
      hnodup.sublist ((alcanzable_sublist inicial s hs).map Tarea.id)
    have hfT := find_por_clave Tarea.id s.T t ht hTnodup
    have hfMs : ∃ mq, s.M.find? (fun x => decide (x.id = m.id)) = some mq := by
      have : (s.M.find? (fun x => decide (x.id = m.id))).isSome :=
        List.find?_isSome.mpr ⟨m, hm, by simp⟩
      exact Option.isSome_iff_exists.mp this
    obtain ⟨mq, hfM⟩ := hfMs
    obtain ⟨l1, l2, hTeq, hl1⟩ := descomposicion_por_clave Tarea.id s.T t ht hTnodup
    have herase : s.T.eraseP (fun x => decide (x.id = t.id)) = l1 ++ l2 := by
      rw [hTeq]
      exact eraseP_en_particion _ l1 t l2 (fun x hx => by simp [hl1 x hx]) (by simp)
    refine List.Perm.trans ?_ ih
    simp only [asignarTarea, hfT, hfM, herase]
    rw [hTeq]
    simp only [List.map_append, List.map_cons, List.append_assoc, List.map_nil]
    refine List.Perm.append_left _ ?_
    simp only [← List.append_assoc]
    exact (List.perm_append_singleton _ _).trans (List.Perm.refl _)

/-- Appending one record to the history adds its task's (original)
duration to its machine's total and nothing to any other machine's. -/
theorem cargaHistorial_append (inicial : Estado) (hist : List Asignacion)
    (a : Asignacion) (mid : Int) :
    cargaHistorial inicial (hist ++ [a]) mid
      = cargaHistorial inicial hist mid
        + if a.maquina_id = mid then duracionOriginal inicial a.tarea_id else 0 := by
  by_cases h : a.maquina_id = mid
  · simp [cargaHistorial, List.filter_append, h]
  · simp [cargaHistorial, List.filter_append, h]

/-- Load consistency along the search: with distinct ids, machines all
starting at zero and an empty initial history, each machine's
`tiempo_ocupado` in a reachable state is the total original duration its
history records carry. -/
theorem consistencia_carga_aux (inicial s : Estado) (h : Alcanzable inicial s)
    (hT : (inicial.T.map Tarea.id).Nodup) (hM : (inicial.M.map Maquina.id).Nodup)
    (hcero : ∀ ma ∈ inicial.M, ma.tiempo_ocupado = 0)
    (hhist : inicial.Asignaciones = []) :
    ∀ ma ∈ s.M, ma.tiempo_ocupado = cargaHistorial inicial s.Asignaciones ma.id := by
  induction h with
  | base =>
    intro ma hma
    simp [hhist, cargaHistorial, hcero ma hma]
  | @paso s t m hs ht hm ih =>
    have hMids : s.M.map Maquina.id = inicial.M.map Maquina.id :=
      alcanzable_ids_maquinas inicial s hs
    have hMnodup : (s.M.map Maquina.id).Nodup := hMids ▸ hM
    have hTnodup : (s.T.map Tarea.id).Nodup :=
      hT.sublist ((alcanzable_sublist inicial s hs).map Tarea.id)
    have hfT := find_por_clave Tarea.id s.T t ht hTnodup
    have hfM := find_por_clave Maquina.id s.M m hm hMnodup
    have htorig : t ∈ inicial.T := (alcanzable_sublist inicial s hs).subset ht
    have hdur : duracionOriginal inicial t.id = t.tiempo := by
      simp [duracionOriginal, find_por_clave Tarea.id inicial.T t htorig hT]
    obtain ⟨m1, m2, hMeq, hm1⟩ := descomposicion_por_clave Maquina.id s.M m hm hMnodup
    have hact : actualizarMaquina s.M m.id t.tiempo
        = m1 ++ { m with tiempo_ocupado := m.tiempo_ocupado + t.tiempo } :: m2 := by
      rw [hMeq]
      exact actualizarMaquina_en_particion m1 m m2 t.tiempo hm1
    have hm2 : ∀ x ∈ m2, x.id ≠ m.id := by
      intro x hx hxid
      have hmid : (m1.map Maquina.id ++ m.id :: m2.map Maquina.id).Nodup := by
        have := hMnodup
        rw [hMeq] at this
        simpa using this
      have := (List.nodup_middle.mp hmid)
      exact (List.nodup_cons.mp this).1
        (List.mem_append_right _ (hxid ▸ List.mem_map_of_mem Maquina.id hx))
    intro ma hma
    simp only [asignarTarea, hfT, hfM, hact] at hma ⊢
    rw [cargaHistorial_append]
    rcases List.mem_append.mp hma with hma1 | hma2
    · have hne : m.id ≠ ma.id := fun hideq => hm1 ma hma1 hideq.symm
      rw [if_neg hne, add_zero]
      exact ih ma (hMeq ▸ List.mem_append_left _ hma1)
    · rcases List.mem_cons.mp hma2 with rfl | hma3
      · simp only [if_pos rfl, hdur]
        have := ih m (hMeq ▸ List.mem_append_right _ (List.mem_cons_self m m2))
        simp [this]
      · have hne : m.id ≠ ma.id := fun hideq => hm2 ma hma3 hideq.symm
        rw [if_neg hne, add_zero]
        exact ih ma
          (hMeq ▸ List.mem_append_right _ (List.mem_cons_of_mem m hma3))

end Ayudantes

/-- C2 (counterexample): asking `asignarTarea` for a task id (99) absent
from the pending list does not signal any error: it returns a state equal
to the input, a silent unchanged copy, refuting the claim that an
`InvalidReference` error is signalled and such a copy is never returned. -/
theorem asignar_id_invalida_contraejemplo :
    asignarTarea ⟨[⟨1, 0⟩], [⟨1, 5⟩], []⟩ 99 1 = ⟨[⟨1, 0⟩], [⟨1, 5⟩], []⟩ ∧
    ∀ t ∈ (⟨[⟨1, 0⟩], [⟨1, 5⟩], []⟩ : Estado).T, t.id ≠ 99 := by
  decide

/-- C2 (amended): when the task id is absent from `pendingTasks`, or the
machine id is absent from the machines, `asignarTarea` returns the input
state unchanged (a silent no-op); no error value exists in its type. -/
theorem asignar_id_invalida_copia (s : Estado) (tid mid : Int)
    (h : (∀ t ∈ s.T, t.id ≠ tid) ∨ (∀ m ∈ s.M, m.id ≠ mid)) :
    asignarTarea s tid mid = s := by
  rcases h with hT | hM
  · have hfT : s.T.find? (fun x => decide (x.id = tid)) = none :=
      List.find?_eq_none.mpr (fun t ht => by simp [hT t ht])
    simp [asignarTarea, hfT]
  · cases hfT : s.T.find? (fun x => decide (x.id = tid)) with
    | none => simp [asignarTarea, hfT]
    | some tarea =>
      have hfM : s.M.find? (fun x => decide (x.id = mid)) = none :=
        List.find?_eq_none.mpr (fun m hm => by simp [hM m hm])
      simp [asignarTarea, hfT, hfM]

/-- Witness for the amended C2 at a concrete input. -/
theorem asignar_id_invalida_testigo :
    ((∀ t ∈ (⟨[⟨1, 0⟩], [⟨1, 5⟩], []⟩ : Estado).T, t.id ≠ 99) ∨
      (∀ m ∈ (⟨[⟨1, 0⟩], [⟨1, 5⟩], []⟩ : Estado).M, m.id ≠ 1)) ∧
    asignarTarea ⟨[⟨1, 0⟩], [⟨1, 5⟩], []⟩ 99 1 = ⟨[⟨1, 0⟩], [⟨1, 5⟩], []⟩ :=
  ⟨Or.inl (by decide), asignar_id_invalida_copia _ 99 1 (Or.inl (by decide))⟩

/-- C4: assigning a pending task `t` to an existing machine `m` (ids
distinct, as the state invariants guarantee) removes exactly `t` from the
pending list, appends exactly the record `(t.id, m.id)` to the history, and
adds `t.tiempo` to machine `m`'s `tiempo_ocupado`, every other machine kept
in place unchanged; the operation is a pure function of the (unmodified)
input state. -/
theorem asignar_transicion (s : Estado) (t : Tarea) (m : Maquina)
    (ht : t ∈ s.T) (hm : m ∈ s.M)
    (hT : (s.T.map Tarea.id).Nodup) (hM : (s.M.map Maquina.id).Nodup) :
    (asignarTarea s t.id m.id).Asignaciones = s.Asignaciones ++ [⟨t.id, m.id, 0⟩] ∧
    ∃ l1 l2 m1 m2,
      s.T = l1 ++ t :: l2 ∧ (asignarTarea s t.id m.id).T = l1 ++ l2 ∧
      s.M = m1 ++ m :: m2 ∧
      (asignarTarea s t.id m.id).M
        = m1 ++ { m with tiempo_ocupado := m.tiempo_ocupado + t.tiempo } :: m2 := by
  obtain ⟨l1, l2, m1, m2, hTeq, hMeq, heq⟩ := asignarTarea_eq s t m ht hm hT hM
  exact ⟨by rw [heq], l1, l2, m1, m2, hTeq, by rw [heq], hMeq, by rw [heq]⟩

/-- Witness for C4 at a concrete input. -/
theorem asignar_transicion_testigo :
    (⟨1, 5⟩ : Tarea) ∈ (estadoInicial 2 [5, 5, 3]).T ∧
    (⟨2, 0⟩ : Maquina) ∈ (estadoInicial 2 [5, 5, 3]).M ∧
    ((estadoInicial 2 [5, 5, 3]).T.map Tarea.id).Nodup ∧
    ((estadoInicial 2 [5, 5, 3]).M.map Maquina.id).Nodup ∧
    ((asignarTarea (estadoInicial 2 [5, 5, 3]) 1 2).Asignaciones
        = (estadoInicial 2 [5, 5, 3]).Asignaciones ++ [⟨1, 2, 0⟩] ∧
      ∃ l1 l2 m1 m2,
        (estadoInicial 2 [5, 5, 3]).T = l1 ++ (⟨1, 5⟩ : Tarea) :: l2 ∧
        (asignarTarea (estadoInicial 2 [5, 5, 3]) 1 2).T = l1 ++ l2 ∧
        (estadoInicial 2 [5, 5, 3]).M = m1 ++ (⟨2, 0⟩ : Maquina) :: m2 ∧
        (asignarTarea (estadoInicial 2 [5, 5, 3]) 1 2).M
          = m1 ++ (⟨2, 0 + 5⟩ : Maquina) :: m2) :=
  ⟨by decide, by decide, by decide, by decide,
    asignar_transicion (estadoInicial 2 [5, 5, 3]) ⟨1, 5⟩ ⟨2, 0⟩
      (by decide) (by decide) (by decide) (by decide)⟩

/-- C6: one transition never lowers the makespan `g`: for every successor
of a state with (as the data model guarantees) non-negative pending
durations, `calcularCoste` of the successor is at least that of the state. -/
theorem coste_monotono (s suc : Estado)
    (hdur : ∀ t ∈ s.T, 0 ≤ t.tiempo) (hsuc : suc ∈ generarSucesores s) :
    calcularCoste s ≤ calcularCoste suc := by
  obtain ⟨t, ht, m, hm, rfl⟩ := (mem_generarSucesores s suc).mp hsuc
  exact coste_asignar_ge s t.id m.id hdur

/-- Witness for C6 at a concrete input. -/
theorem coste_monotono_testigo :
    (∀ t ∈ (estadoInicial 2 [5, 5, 3]).T, 0 ≤ t.tiempo) ∧
    asignarTarea (estadoInicial 2 [5, 5, 3]) 1 1
      ∈ generarSucesores (estadoInicial 2 [5, 5, 3]) ∧
    calcularCoste (estadoInicial 2 [5, 5, 3])
      ≤ calcularCoste (asignarTarea (estadoInicial 2 [5, 5, 3]) 1 1) :=
  ⟨by decide, by decide,
    coste_monotono (estadoInicial 2 [5, 5, 3]) _ (by decide) (by decide)⟩

/-- C7: the successor generator returns exactly one application of the
transition per pair of the Cartesian product `pendingTasks × machines`, in
product order, so it generates `|T| * |M|` successors. -/
theorem sucesores_producto (s : Estado) :
    generarSucesores s
      = (s.T.product s.M).map (fun par => asignarTarea s par.1.id par.2.id) ∧
    (generarSucesores s).length = s.T.length * s.M.length := by
  have hprod : generarSucesores s
      = (s.T.product s.M).map (fun par => asignarTarea s par.1.id par.2.id) := by
    simp [generarSucesores, List.product, List.map_flatMap, List.map_map,
      Function.comp_def]
  refine ⟨hprod, ?_⟩
  simp only [generarSucesores, List.length_flatMap, List.length_map]
  induction s.T with
  | nil => simp
  | cons t resto ih => simp [ih, Nat.succ_mul, Nat.add_comm]

/-- C5: for every state, the heuristic the code computes equals the spec's
formula `max(0, round(averageRemainingLoad - averageSlack))` (over the
exact value of the arithmetic; the code clamps before rounding, the
formula clamps after, and the two agree). -/
theorem heuristica_formula (estado : Estado) :
    calcularHeuristica2 estado = heuristicaFormulaSpec estado := by
  simp only [calcularHeuristica2, heuristicaFormulaSpec, calcularCoste]
  set x : ℚ :=
    (((estado.T.map (fun t => t.tiempo)).sum : Int) : ℚ) / (estado.M.length : ℚ)
      - (((estado.M.map (fun m =>
            estado.M.foldl (fun acc m' => max acc m'.tiempo_ocupado) 0
              - m.tiempo_ocupado)).sum : Int) : ℚ) / (estado.M.length : ℚ)
    with hxdef
  clear_value x
  by_cases hx : x < 0
  · rw [if_pos hx, round_zero]
    have hle : round x ≤ 0 := by
      rw [round_eq]
      calc ⌊x + 1 / 2⌋ ≤ ⌊(0 : ℚ) + 1 / 2⌋ := Int.floor_le_floor (by linarith)
        _ = 0 := by norm_num
    exact (max_eq_left hle).symm
  · push_neg at hx
    rw [if_neg (not_lt.mpr hx)]
    have hge : 0 ≤ round x := by
      rw [round_eq]
      calc (0 : Int) = ⌊(0 : ℚ) + 1 / 2⌋ := by norm_num
        _ ≤ ⌊x + 1 / 2⌋ := Int.floor_le_floor (by linarith)
    exact (max_eq_right hge).symm

/-- C8: along any search-reachable state, the pending task ids together
with the history's task ids are a permutation of the original task-id
list, and carry no duplicate: every original id lives in exactly one of
the two collections. -/
theorem conservacion_tareas (inicial s : Estado) (h : Alcanzable inicial s)
    (hnodup : (inicial.T.map Tarea.id).Nodup) (hhist : inicial.Asignaciones = []) :
    (s.T.map Tarea.id ++ s.Asignaciones.map Asignacion.tarea_id).Perm
      (inicial.T.map Tarea.id) ∧
    (s.T.map Tarea.id ++ s.Asignaciones.map Asignacion.tarea_id).Nodup := by
  have hp := conservacion_perm inicial s h hnodup
  rw [hhist] at hp
  simp only [List.map_nil, List.append_nil] at hp
  exact ⟨hp, (hp.nodup_iff).mpr hnodup⟩

/-- Witness for C8 one transition into the search from scenario A's
initial state. -/
theorem conservacion_tareas_testigo :
    Alcanzable (estadoInicial 2 [5, 5, 3])
      (asignarTarea (estadoInicial 2 [5, 5, 3]) 1 1) ∧
    ((estadoInicial 2 [5, 5, 3]).T.map Tarea.id).Nodup ∧
    (estadoInicial 2 [5, 5, 3]).Asignaciones = [] ∧
    (((asignarTarea (estadoInicial 2 [5, 5, 3]) 1 1).T.map Tarea.id
        ++ (asignarTarea (estadoInicial 2 [5, 5, 3]) 1 1).Asignaciones.map
            Asignacion.tarea_id).Perm
        ((estadoInicial 2 [5, 5, 3]).T.map Tarea.id) ∧
      ((asignarTarea (estadoInicial 2 [5, 5, 3]) 1 1).T.map Tarea.id
        ++ (asignarTarea (estadoInicial 2 [5, 5, 3]) 1 1).Asignaciones.map
            Asignacion.tarea_id).Nodup) :=
  ⟨Alcanzable.paso ⟨1, 5⟩ ⟨1, 0⟩ Alcanzable.base (by decide) (by decide),
    by decide, rfl,
    conservacion_tareas (estadoInicial 2 [5, 5, 3]) _
      (Alcanzable.paso ⟨1, 5⟩ ⟨1, 0⟩ Alcanzable.base (by decide) (by decide))
      (by decide) rfl⟩

/-- C9: along any search-reachable state (distinct ids, machines starting
at zero, empty initial history), each machine's `tiempo_ocupado` equals
the sum of the original durations of the tasks its history records assign
to it. -/
theorem consistencia_carga (inicial s : Estado) (h : Alcanzable inicial s)
    (hT : (inicial.T.map Tarea.id).Nodup) (hM : (inicial.M.map Maquina.id).Nodup)
    (hcero : ∀ ma ∈ inicial.M, ma.tiempo_ocupado = 0)
    (hhist : inicial.Asignaciones = []) :
    ∀ ma ∈ s.M, ma.tiempo_ocupado = cargaHistorial inicial s.Asignaciones ma.id :=
  consistencia_carga_aux inicial s h hT hM hcero hhist

/-- Witness for C9 one transition into the search from scenario A's
initial state. -/
theorem consistencia_carga_testigo :
    Alcanzable (estadoInicial 2 [5, 5, 3])
      (asignarTarea (estadoInicial 2 [5, 5, 3]) 1 1) ∧
    ((estadoInicial 2 [5, 5, 3]).T.map Tarea.id).Nodup ∧
    ((estadoInicial 2 [5, 5, 3]).M.map Maquina.id).Nodup ∧
    (∀ ma ∈ (estadoInicial 2 [5, 5, 3]).M, ma.tiempo_ocupado = 0) ∧
    (estadoInicial 2 [5, 5, 3]).Asignaciones = [] ∧
    ∀ ma ∈ (asignarTarea (estadoInicial 2 [5, 5, 3]) 1 1).M,
      ma.tiempo_ocupado = cargaHistorial (estadoInicial 2 [5, 5, 3])
        (asignarTarea (estadoInicial 2 [5, 5, 3]) 1 1).Asignaciones ma.id :=
  ⟨Alcanzable.paso ⟨1, 5⟩ ⟨1, 0⟩ Alcanzable.base (by decide) (by decide),
    by decide, by decide, by decide, rfl,
    consistencia_carga (estadoInicial 2 [5, 5, 3]) _
      (Alcanzable.paso ⟨1, 5⟩ ⟨1, 0⟩ Alcanzable.base (by decide) (by decide))
      (by decide) (by decide) (by decide) rfl⟩

/-- C10: on an initial state whose pending list is already empty, the very
first popped node passes the goal test, so the search returns that input
state itself — machines, loads and history intact — with one loop
iteration, before any dominance bookkeeping or expansion. -/
theorem meta_inmediata (e : Estado) (n : Nat) (h : e.T = []) :
    A_estrella (n + 1) e = some e := by
  simp [A_estrella, bucleAstar, extraerMin, h]

/-- Witness for C10: a state with a loaded machine and non-trivial history
comes back verbatim. -/
theorem meta_inmediata_testigo :
    (⟨[⟨1, 4⟩], [], [⟨9, 1, 0⟩]⟩ : Estado).T = [] ∧
    A_estrella 1 ⟨[⟨1, 4⟩], [], [⟨9, 1, 0⟩]⟩ = some ⟨[⟨1, 4⟩], [], [⟨9, 1, 0⟩]⟩ :=
  ⟨rfl, meta_inmediata ⟨[⟨1, 4⟩], [], [⟨9, 1, 0⟩]⟩ 0 rfl⟩

/-- C3 (counterexample): on an input with one pending task and no machine
the frontier empties without a goal, and the search returns the original
input state itself — not a failure value distinguishable from a genuine
solution — refuting the claim. -/
theorem busqueda_agotada_contraejemplo :
    A_estrella 5 ⟨[], [⟨1, 5⟩], []⟩ = some ⟨[], [⟨1, 5⟩], []⟩ ∧
    (⟨[], [⟨1, 5⟩], []⟩ : Estado).T ≠ [] := by
  decide

/-- C3 (amended): when the frontier empties without a goal (as happens
whenever there are pending tasks but no machines), the search returns the
original input state as its result, indistinguishable in type from a
genuine solution. -/
theorem busqueda_agotada_devuelve_entrada (e : Estado) (n : Nat)
    (hM : e.M = []) (hT : e.T ≠ []) :
    A_estrella (n + 2) e = some e := by
  have hempty : e.T.isEmpty = false := by
    cases hTl : e.T with
    | nil => exact absurd hTl hT
    | cons a resto => rfl
  simp [A_estrella, bucleAstar, extraerMin, hempty, generarSucesores, hM,
    buscarCerrada, insertarCerrada, claveEstado, flatMap_vacio]

/-- Witness for the amended C3 at a concrete input. -/
theorem busqueda_agotada_testigo :
    (⟨[], [⟨1, 5⟩], []⟩ : Estado).M = [] ∧
    (⟨[], [⟨1, 5⟩], []⟩ : Estado).T ≠ [] ∧
    A_estrella 2 ⟨[], [⟨1, 5⟩], []⟩ = some ⟨[], [⟨1, 5⟩], []⟩ :=
  ⟨rfl, by decide,
    busqueda_agotada_devuelve_entrada ⟨[], [⟨1, 5⟩], []⟩ 0 rfl (by decide)⟩

/-- C1: on machine count 2 and durations [5, 5, 3] (task ids 1..3 in input
order, machines starting at zero), the A* search returns a terminal state
— empty pending list — whose makespan `g` is 8; 30 loop iterations
suffice for the run to return. -/
theorem escenarioA_makespan_ocho :
    (A_estrella 30 (estadoInicial 2 [5, 5, 3])).map
      (fun s => (s.T, calcularCoste s)) = some ([], 8) := by
  decide

end PMS
